import Mathlib

/-!
Verification of the `rmcts` Monte Carlo Tree Search engine.

The Rust sources (`src/node/mod.rs`, `src/tree/mod.rs`, `src/state/mod.rs`,
`src/strategies/mod.rs`) are shallowly embedded here.  The `Rc<RefCell<_>>`
node graph is represented as an arena: a list of nodes addressed by stable
indices, with parent/child links stored as index fields (the design document
itself recommends exactly this representation for a reimplementation).

`f32` values are modelled by the type `F`: an exact rational payload plus the
IEEE special values `+inf`, `-inf` and `NaN`.  Arithmetic on `F` follows the
IEEE-754 special-value rules (with exact rational arithmetic in the finite
range, and the `+0` zero only, which matches every division that occurs in
the source: all divisors are `u32` casts).  The transcendental functions
`f32::ln` and `f32::sqrt` are not rational-valued, so they are taken as
parameters (`lnF`, `sqrtF`); the theorems that depend on their behaviour
assume only the IEEE facts used by the specification (`ln 0 = -inf`,
`sqrt (-inf) = NaN`, `ln` finite and nonnegative on `[1, ∞)`, `sqrt` finite
on `[0, ∞)`).

`u32` counters (`visits`, `size`) are modelled as `Nat`, and Rust loops that
walk the node graph are given an explicit fuel argument; all claims are
stated for well-formed trees, where the available fuel strictly exceeds the
number of loop iterations the Rust code would perform, so the fuel is never
exhausted and the embedding agrees with the source step by step.
-/

set_option maxHeartbeats 1000000
set_option linter.unusedSectionVars false
set_option linter.unnecessarySimpa false
set_option linter.unnecessarySeqFocus false

namespace Rmcts

/-- Model of `f32`: exact rational finite values plus IEEE specials. -/
inductive F : Type where
  | fin : ℚ → F
  | pinf : F
  | ninf : F
  | nan : F
deriving DecidableEq, Repr

/-- IEEE addition (`+` on `f32`), exact in the finite range. -/
def F.add : F → F → F
  | .nan, _ => .nan
  | _, .nan => .nan
  | .pinf, .ninf => .nan
  | .ninf, .pinf => .nan
  | .pinf, _ => .pinf
  | _, .pinf => .pinf
  | .ninf, _ => .ninf
  | _, .ninf => .ninf
  | .fin x, .fin y => .fin (x + y)

/-- IEEE multiplication (`*` on `f32`), exact in the finite range. -/
def F.mul : F → F → F
  | .nan, _ => .nan
  | _, .nan => .nan
  | .fin x, .fin y => .fin (x * y)
  | .fin x, .pinf => if 0 < x then .pinf else if x < 0 then .ninf else .nan
  | .pinf, .fin y => if 0 < y then .pinf else if y < 0 then .ninf else .nan
  | .fin x, .ninf => if 0 < x then .ninf else if x < 0 then .pinf else .nan
  | .ninf, .fin y => if 0 < y then .ninf else if y < 0 then .pinf else .nan
  | .pinf, .pinf => .pinf
  | .pinf, .ninf => .ninf
  | .ninf, .pinf => .ninf
  | .ninf, .ninf => .pinf

/-- IEEE division (`/` on `f32`); the zero divisor is `+0`, which is the only
zero that occurs in the source (all divisors are `u32` casts). -/
def F.div : F → F → F
  | .nan, _ => .nan
  | _, .nan => .nan
  | .fin x, .fin y =>
      if y = 0 then (if 0 < x then .pinf else if x < 0 then .ninf else .nan)
      else .fin (x / y)
  | .fin _, .pinf => .fin 0
  | .fin _, .ninf => .fin 0
  | .pinf, .fin y => if 0 ≤ y then .pinf else .ninf
  | .ninf, .fin y => if 0 ≤ y then .ninf else .pinf
  | .pinf, .pinf => .nan
  | .pinf, .ninf => .nan
  | .ninf, .pinf => .nan
  | .ninf, .ninf => .nan

/-- Rust's `PartialOrd::partial_cmp` on `f32`: `none` exactly when a `NaN` is involved. -/
def F.pcmp : F → F → Option Ordering
  | .nan, _ => none
  | _, .nan => none
  | .fin x, .fin y => some (if x < y then .lt else if x = y then .eq else .gt)
  | .fin _, .pinf => some .lt
  | .fin _, .ninf => some .gt
  | .pinf, .fin _ => some .gt
  | .pinf, .pinf => some .eq
  | .pinf, .ninf => some .gt
  | .ninf, .fin _ => some .lt
  | .ninf, .ninf => some .eq
  | .ninf, .pinf => some .lt

/-- Order test `a <= b` in the IEEE partial order (false when a `NaN` is involved). -/
def F.ble (a b : F) : Bool :=
  match F.pcmp a b with
  | some Ordering.lt => true
  | some Ordering.eq => true
  | _ => false

/-- Order test `a < b` in the IEEE partial order (false when a `NaN` is involved). -/
def F.blt (a b : F) : Bool :=
  match F.pcmp a b with
  | some Ordering.lt => true
  | _ => false

/-- Finiteness test `f32::is_finite`. -/
def F.isFinite : F → Bool
  | .fin _ => true
  | _ => false

/-- The `State<T>` trait of `src/state/mod.rs`: `next_action` proposes one
untried action (or none when exhausted), `do_action` advances the state in
place and returns the reward of that single transition.  The in-place
mutation is modelled by returning the successor state alongside the reward. -/
structure StateOps (T S : Type) where
  next_action : S → Option T
  do_action : S → T → S × F

/-- Struct `Node<T, S>` of `src/node/mod.rs`.  `children` and `parent` hold arena
indices instead of `Rc`/`Weak` references. -/
structure Node (T S : Type) where
  action : T
  state : S
  visits : Nat
  total_reward : F
  expanded : Bool
  children : List Nat
  parent : Option Nat

instance {T S : Type} [Inhabited T] [Inhabited S] : Inhabited (Node T S) :=
  ⟨⟨default, default, 0, F.fin 0, false, [], none⟩⟩

/-- Constructor `Node::new`: zero statistics, no parent, no children. -/
def Node.new {T S : Type} (action : T) (state : S) : Node T S :=
  { action := action, state := state, visits := 0, total_reward := F.fin 0,
    expanded := false, children := [], parent := none }

/-- Struct `Tree<T, S>` of `src/tree/mod.rs`.  The arena `nodes` owns every node;
index 0 is the root. -/
structure Tree (T S : Type) where
  nodes : List (Node T S)
  learning_rate : F
  size : Nat

/-- Apply `f` to the element at position `n`, leaving the rest unchanged. -/
def listModify {α : Type _} (f : α → α) : Nat → List α → List α
  | _, [] => []
  | 0, x :: xs => f x :: xs
  | n + 1, x :: xs => x :: listModify f n xs

variable {T S : Type} [Inhabited T] [Inhabited S]

/-- Constructor `Tree::new`: a fresh root node, `size = 1`. -/
def Tree.new (learning_rate : F) (action : T) (state : S) : Tree T S :=
  { nodes := [Node.new action state], learning_rate := learning_rate, size := 1 }

/-- The node stored at arena index `i` (junk default out of range; every
access performed by the algorithms is in range on well-formed trees). -/
def Tree.nd (t : Tree T S) (i : Nat) : Node T S :=
  t.nodes.getD i default

/-- Replace the node at index `i` by `f` of itself. -/
def Tree.upd (t : Tree T S) (i : Nat) (f : Node T S → Node T S) : Tree T S :=
  { t with nodes := listModify f i t.nodes }

/-- Method `Node::parent`: resolve the weak back-reference.  A stale reference is
modelled by an out-of-range index and resolves to `none`, exactly like a
failed `Weak::upgrade`. -/
def Tree.parentOf (t : Tree T S) (i : Nat) : Option Nat :=
  match (t.nd i).parent with
  | none => none
  | some p => if p < t.nodes.length then some p else none

/-- Method `Node::child_at`. -/
def Tree.child_at (t : Tree T S) (i index : Nat) : Option Nat :=
  if (t.nd i).children.length > index then (t.nd i).children.get? index else none

/-- Rust's `Iterator::max_by`: fold keeping the accumulator only when it
compares strictly greater, so equal maxima resolve to the `last` element. -/
def maxBy {α : Type _} (cmp : α → α → Ordering) : List α → Option α
  | [] => none
  | x :: xs => some (xs.foldl (fun acc y => if cmp acc y = Ordering.gt then acc else y) x)

/-- Method `Node::best_child`: maximum child by `total_reward` under
`partial_cmp(..).unwrap_or(Ordering::Less)`. -/
def Tree.best_child (t : Tree T S) (i : Nat) : Option Nat :=
  maxBy (fun a b =>
    (F.pcmp (t.nd a).total_reward (t.nd b).total_reward).getD Ordering.lt)
    (t.nd i).children

/-- Method `Tree::add_node`: bump `size`, wire the parent back-reference
(`set_parent`) and append to the parent's children (`add_child`). -/
def Tree.add_node (t : Tree T S) (n : Node T S) (parentIdx : Nat) : Tree T S × Nat :=
  let newIdx := t.nodes.length
  let t1 : Tree T S :=
    { t with nodes := t.nodes ++ [{ n with parent := some parentIdx }], size := t.size + 1 }
  let t2 := t1.upd parentIdx (fun p => { p with children := p.children ++ [newIdx] })
  (t2, newIdx)

/-- Method `Node::score`: the UCT value
`total_reward / visits + c * sqrt((2 * ln(parent.visits)) / visits)`,
or `0` when the parent does not resolve.  `lnF`/`sqrtF` stand for
`f32::ln`/`f32::sqrt`. -/
def Tree.score (lnF sqrtF : F → F) (t : Tree T S) (i : Nat) (c : F) : F :=
  match t.parentOf i with
  | some p =>
      F.add (F.div (t.nd i).total_reward (F.fin ((t.nd i).visits : ℚ)))
        (F.mul c (sqrtF (F.div
          (F.mul (F.fin 2) (lnF (F.fin ((t.nd p).visits : ℚ))))
          (F.fin ((t.nd i).visits : ℚ)))))
  | none => F.fin 0

/-- One selection step: `children.iter().max_by(..)` with the comparator of
`Tree::select` — an accumulator with `visits == 0` is kept outright
(`Ordering::Greater`), otherwise the UCT scores are compared with
`partial_cmp(..).unwrap_or(Ordering::Less)`. -/
def Tree.selectChild (lnF sqrtF : F → F) (t : Tree T S) (i : Nat) : Option Nat :=
  maxBy (fun a b =>
    if (t.nd a).visits = 0 then Ordering.gt
    else
      (F.pcmp (t.score lnF sqrtF a t.learning_rate)
        (t.score lnF sqrtF b t.learning_rate)).getD Ordering.lt)
    (t.nd i).children

/-- The descent loop of `Tree::select`: while the current node has children,
move to the child chosen by `max_by` (the `None` arm of the match mirrors
the `break` in the source and is unreachable for a nonempty children list).
`fuel` bounds the number of iterations; on a well-formed tree the child
index strictly increases, so `t.nodes.length` iterations always suffice. -/
def Tree.selectLoop (lnF sqrtF : F → F) (t : Tree T S) : Nat → Nat → Nat
  | 0, i => i
  | fuel + 1, i =>
    if (t.nd i).children = [] then i
    else
      match t.selectChild lnF sqrtF i with
      | some c => t.selectLoop lnF sqrtF fuel c
      | none => i

/-- Method `Tree::select`: descend from the root; the source function always ends in
`Some(child)`. -/
def Tree.select (lnF sqrtF : F → F) (t : Tree T S) : Option Nat :=
  some (t.selectLoop lnF sqrtF t.nodes.length 0)

/-- The greedy enumeration `next_action`/`do_action` performs starting from
`s`: the list of (action, reward) pairs produced and the state it ends in.
`fuel` bounds the number of steps. -/
def runEnum (ops : StateOps T S) : Nat → S → List (T × F) × S
  | 0, s => ([], s)
  | fuel + 1, s =>
    match ops.next_action s with
    | none => ([], s)
    | some a =>
      let sr := ops.do_action s a
      let rest := runEnum ops fuel sr.1
      ((a, sr.2) :: rest.1, rest.2)

/-- The enumeration from `s` terminates within `fuel` steps: after consuming
every action `runEnum` collects, `next_action` reports none remain. -/
@[reducible] def Exhausts (ops : StateOps T S) (fuel : Nat) (s : S) : Prop :=
  ops.next_action (runEnum ops fuel s).2 = none

/-- The expansion loop of `Tree::expand`: drive a clone `currState` of the
leaf's state with `next_action`; for each action, create a child whose state
is a fresh clone of the leaf's original state advanced by that one action,
and attach it with `add_node`.  `fuel` bounds the number of iterations
(the Rust loop runs until `next_action` returns `None`). -/
def Tree.expandLoop (ops : StateOps T S) : Nat → Tree T S → Nat → S → Tree T S
  | 0, t, _, _ => t
  | fuel + 1, t, i, currState =>
    match ops.next_action currState with
    | none => t
    | some a =>
      let state := (ops.do_action (t.nd i).state a).1
      let currState1 := (ops.do_action currState a).1
      let t1 := (t.add_node (Node.new a state) i).1
      Tree.expandLoop ops fuel t1 i currState1

/-- Method `Tree::expand`: run the expansion loop on a clone of the node's state,
then return `child_at(0)`. -/
def Tree.expand (ops : StateOps T S) (fuel : Nat) (t : Tree T S) (i : Nat) :
    Tree T S × Option Nat :=
  let t1 := Tree.expandLoop ops fuel t i (t.nd i).state
  (t1, t1.child_at i 0)

/-- The rollout loop of `Tree::simulate`: clone the state and accumulate
`total_reward += do_action(..)` until `next_action` returns `None`. -/
def simLoop (ops : StateOps T S) : Nat → S → F → F
  | 0, _, acc => acc
  | fuel + 1, s, acc =>
    match ops.next_action s with
    | none => acc
    | some a =>
      let sr := ops.do_action s a
      simLoop ops fuel sr.1 (F.add acc sr.2)

/-- Method `Tree::simulate`: undiscounted reward sum of a full rollout from the
node's state.  The node is read, never written (`&self` in the source). -/
def Tree.simulate (ops : StateOps T S) (fuel : Nat) (t : Tree T S) (i : Nat) : F :=
  simLoop ops fuel (t.nd i).state (F.fin 0)

/-- The node update performed by one backpropagation step:
`total_reward += value; visits += 1`. -/
def bpFun (v : F) : Node T S → Node T S :=
  fun n => { n with total_reward := F.add n.total_reward v, visits := n.visits + 1 }

/-- One update of the backpropagation loop applied to the node at `i`. -/
def Tree.bpStep (t : Tree T S) (i : Nat) (v : F) : Tree T S :=
  t.upd i (bpFun v)

/-- The loop of `Tree::backpropagate`: update the current node, then move to
its parent; stop when the parent does not resolve.  `fuel` bounds the number
of parent steps (on a well-formed tree parent indices strictly decrease, so
`t.nodes.length` steps always suffice). -/
def Tree.backpropLoop (v : F) : Nat → Tree T S → Nat → Tree T S
  | 0, t, i => t.bpStep i v
  | fuel + 1, t, i =>
    let t1 := t.bpStep i v
    match t1.parentOf i with
    | none => t1
    | some p => Tree.backpropLoop v fuel t1 p

/-- Method `Tree::backpropagate`. -/
def Tree.backpropagate (t : Tree T S) (i : Nat) (v : F) : Tree T S :=
  Tree.backpropLoop v t.nodes.length t i

/-- The chain of nodes `Tree::backpropagate` walks from `i`: `i`, then its
parent, and so on while the parent resolves, consuming one `fuel` per parent
step — the exact mirror of `Tree.backpropLoop`. -/
def Tree.path : Nat → Tree T S → Nat → List Nat
  | 0, _, i => [i]
  | fuel + 1, t, i =>
    i :: (match t.parentOf i with
      | none => []
      | some p => Tree.path fuel t p)

/-- Method `Tree::search`: for each iteration select, expand when already visited
(keeping the selected node when expansion yields nothing), simulate and
backpropagate; finally return the root's best child.  The `none` arm of the
select match mirrors the early `break` in the source. -/
def Tree.search (ops : StateOps T S) (lnF sqrtF : F → F) (efuel sfuel : Nat) :
    Nat → Tree T S → Tree T S × Option Nat
  | 0, t => (t, t.best_child 0)
  | iters + 1, t =>
    match t.select lnF sqrtF with
    | none => (t, t.best_child 0)
    | some leaf =>
      let step : Tree T S × Nat :=
        if (t.nd leaf).visits > 0 then
          match Tree.expand ops efuel t leaf with
          | (t2, some x) => (t2, x)
          | (t2, none) => (t2, leaf)
        else (t, leaf)
      let reward := step.1.simulate ops sfuel step.2
      let t2 := step.1.backpropagate step.2 reward
      Tree.search ops lnF sqrtF efuel sfuel iters t2

/-- Consecutive arena indices `[L, L+1, ..., L+n-1]` — the indices the
expansion loop assigns to the children it creates. -/
def idxs : Nat → Nat → List Nat
  | _, 0 => []
  | L, n + 1 => L :: idxs (L + 1) n

/-- Well-formed tree: nonempty arena, the root (index 0) has no parent,
children indices point forward and in range, and every non-root node has a
parent with a strictly smaller index.  Every tree the algorithms build from
`Tree.new` satisfies this. -/
@[reducible] def WF (t : Tree T S) : Prop :=
  0 < t.nodes.length ∧
  (t.nd 0).parent = none ∧
  (∀ i ∈ List.range t.nodes.length, ∀ c ∈ (t.nd i).children, i < c ∧ c < t.nodes.length) ∧
  (∀ i ∈ List.range t.nodes.length, 0 < i → (t.nd i).parent.getD i < i)

/-- The statistics invariant maintained by the algorithm: a never-visited
node still has its initial `total_reward = 0` (the two fields are only ever
updated together by backpropagation). -/
@[reducible] def ZeroInv (t : Tree T S) : Prop :=
  ∀ j ∈ List.range t.nodes.length, (t.nd j).visits = 0 → (t.nd j).total_reward = F.fin 0

/-- Invariant: the `size` field agrees with the number of nodes ever added to the arena. -/
@[reducible] def SizeInv (t : Tree T S) : Prop :=
  t.size = t.nodes.length

/-- The fold step of `Iterator::max_by` for a comparison keyed by `k`
through `partial_cmp(..).unwrap_or(Ordering::Less)` (as in `best_child`). -/
def maxStep {α : Type _} (k : α → F) : α → α → α :=
  fun a y => if (F.pcmp (k a) (k y)).getD Ordering.lt = Ordering.gt then a else y

/-- The fold step of the `max_by` in `Tree::select`: an accumulator with
zero visits is kept outright, otherwise scores are compared. -/
def selStep {α : Type _} (vis : α → Nat) (sc : α → F) : α → α → α :=
  fun a y =>
    if (if vis a = 0 then Ordering.gt
        else (F.pcmp (sc a) (sc y)).getD Ordering.lt) = Ordering.gt
    then a else y

/-- A computable stand-in for `f32::ln`, used only to witness that the IEEE
facts assumed about `lnF` are satisfiable: it maps `0` to `-inf` and `q ≥ 1`
to the finite nonnegative value `q - 1`. -/
def lnD : F → F
  | .fin q => if q = 0 then F.ninf else if 1 ≤ q then F.fin (q - 1) else F.nan
  | .pinf => F.pinf
  | .ninf => F.nan
  | .nan => F.nan

/-- A computable stand-in for `f32::sqrt`, used only to witness that the
IEEE facts assumed about `sqrtF` are satisfiable: nonnegative finite values
map to finite values, `-inf` to `NaN`. -/
def sqrtD : F → F
  | .fin q => if 0 ≤ q then F.fin q else F.nan
  | .pinf => F.pinf
  | .ninf => F.nan
  | .nan => F.nan

/-- A concrete counting domain for witnesses: the state is the number of
remaining actions, every transition earns reward `1/2`. -/
def opsCount : StateOps Nat Nat :=
  { next_action := fun s => if s = 0 then none else some s,
    do_action := fun s _ => (s - 1, F.fin (1 / 2)) }

/-- Witness tree: a fresh root whose state offers two actions. -/
def tW0 : Tree Nat Nat := Tree.new (F.fin 1) 0 2

/-- Witness tree: the root expanded once, yielding children `[1, 2]` with
zero statistics. -/
def tW1 : Tree Nat Nat := (Tree.expand opsCount 4 tW0 0).1

/-- Witness tree given by an explicit arena: a root with two children where
the root and child 1 each carry one visit and reward `1`, child 2 is fresh —
the shape `tW1` reaches after one backpropagation of reward `1` from child 1. -/
def tW2 : Tree Nat Nat :=
  ⟨[⟨0, 2, 1, F.fin 1, false, [1, 2], none⟩,
    ⟨1, 1, 1, F.fin 1, false, [], some 0⟩,
    ⟨2, 1, 0, F.fin 0, false, [], some 0⟩], F.fin 1, 3⟩

/-! ### Basic list-arena lemmas -/

lemma getD_append_left {α : Type _} (d : α) :
    ∀ (l l' : List α) (n : Nat), n < l.length → (l ++ l').getD n d = l.getD n d := by
  intro l
  induction l with
  | nil => intro l' n h; simp at h
  | cons x xs ih =>
    intro l' n h
    cases n with
    | zero => rfl
    | succ m => simpa using ih l' m (by simpa using h)

lemma getD_ge_length {α : Type _} (d : α) :
    ∀ (l : List α) (n : Nat), l.length ≤ n → l.getD n d = d := by
  intro l
  induction l with
  | nil => intro n _; cases n <;> rfl
  | cons x xs ih =>
    intro n h
    cases n with
    | zero => simp at h
    | succ m => simpa using ih m (by simpa using h)

lemma getD_append_self {α : Type _} (d : α) (l : List α) (x : α) :
    (l ++ [x]).getD l.length d = x := by
  induction l with
  | nil => rfl
  | cons y ys ih => simpa using ih

lemma length_listModify {α : Type _} (f : α → α) :
    ∀ (n : Nat) (l : List α), (listModify f n l).length = l.length := by
  intro n
  induction n with
  | zero => intro l; cases l <;> rfl
  | succ m ih => intro l; cases l with
    | nil => rfl
    | cons x xs => simpa [listModify] using ih xs

lemma getD_listModify_self {α : Type _} (f : α → α) (d : α) :
    ∀ (n : Nat) (l : List α), n < l.length →
      (listModify f n l).getD n d = f (l.getD n d) := by
  intro n
  induction n with
  | zero => intro l h; cases l with
    | nil => simp at h
    | cons x xs => rfl
  | succ m ih => intro l h; cases l with
    | nil => simp at h
    | cons x xs => simpa [listModify] using ih xs (by simpa using h)

lemma getD_listModify_ne {α : Type _} (f : α → α) (d : α) :
    ∀ (n m : Nat) (l : List α), m ≠ n →
      (listModify f n l).getD m d = l.getD m d := by
  intro n
  induction n with
  | zero =>
    intro m l hm
    cases l with
    | nil => rfl
    | cons x xs => cases m with
      | zero => exact absurd rfl hm
      | succ k => rfl
  | succ k ih =>
    intro m l hm
    cases l with
    | nil => rfl
    | cons x xs => cases m with
      | zero => rfl
      | succ j => simpa [listModify] using ih j xs (by omega)

lemma Tree.length_upd (t : Tree T S) (i : Nat) (f : Node T S → Node T S) :
    (t.upd i f).nodes.length = t.nodes.length :=
  length_listModify f i t.nodes

lemma Tree.size_upd (t : Tree T S) (i : Nat) (f : Node T S → Node T S) :
    (t.upd i f).size = t.size := rfl

lemma Tree.lr_upd (t : Tree T S) (i : Nat) (f : Node T S → Node T S) :
    (t.upd i f).learning_rate = t.learning_rate := rfl

lemma Tree.nd_upd_self (t : Tree T S) (i : Nat) (f : Node T S → Node T S)
    (h : i < t.nodes.length) : (t.upd i f).nd i = f (t.nd i) :=
  getD_listModify_self f default i t.nodes h

lemma Tree.nd_upd_ne (t : Tree T S) (i j : Nat) (f : Node T S → Node T S)
    (h : j ≠ i) : (t.upd i f).nd j = t.nd j :=
  getD_listModify_ne f default i j t.nodes h

lemma Tree.parent_nd_upd (t : Tree T S) (i j : Nat) (f : Node T S → Node T S)
    (hf : ∀ n, (f n).parent = n.parent) :
    ((t.upd i f).nd j).parent = (t.nd j).parent := by
  by_cases hji : j = i
  · subst hji
    by_cases hj : j < t.nodes.length
    · rw [Tree.nd_upd_self t j f hj, hf]
    · unfold Tree.nd Tree.upd
      rw [getD_ge_length, getD_ge_length]
      · omega
      · simp [length_listModify]; omega
  · rw [Tree.nd_upd_ne t i j f hji]

lemma Tree.parentOf_upd (t : Tree T S) (i j : Nat) (f : Node T S → Node T S)
    (hf : ∀ n, (f n).parent = n.parent) :
    (t.upd i f).parentOf j = t.parentOf j := by
  unfold Tree.parentOf
  rw [Tree.parent_nd_upd t i j f hf, Tree.length_upd]

/-! ### Order lemmas for the float model -/

@[simp] lemma F.pcmp_nan_right (a : F) : F.pcmp a F.nan = none := by cases a <;> rfl

@[simp] lemma F.ble_fin_fin {x y : ℚ} : F.ble (F.fin x) (F.fin y) = true ↔ x ≤ y := by
  rcases lt_trichotomy x y with h | h | h
  · simp [F.ble, F.pcmp, h, h.le]
  · simp [F.ble, F.pcmp, h, lt_irrefl]
  · have h1 : ¬ x < y := not_lt.mpr h.le
    have h2 : ¬ x = y := (ne_of_gt h)
    simp [F.ble, F.pcmp, h1, h2, not_le.mpr h]

@[simp] lemma F.blt_fin_fin {x y : ℚ} : F.blt (F.fin x) (F.fin y) = true ↔ x < y := by
  rcases lt_trichotomy x y with h | h | h
  · simp [F.blt, F.pcmp, h]
  · simp [F.blt, F.pcmp, h, lt_irrefl]
  · have h1 : ¬ x < y := not_lt.mpr h.le
    have h2 : ¬ x = y := (ne_of_gt h)
    simp [F.blt, F.pcmp, h1, h2, not_lt.mpr h.le]

@[simp] lemma F.ble_nan_left (b : F) : F.ble F.nan b = false := by cases b <;> rfl
@[simp] lemma F.ble_nan_right (a : F) : F.ble a F.nan = false := by cases a <;> rfl
@[simp] lemma F.blt_nan_left (b : F) : F.blt F.nan b = false := by cases b <;> rfl
@[simp] lemma F.blt_nan_right (a : F) : F.blt a F.nan = false := by cases a <;> rfl
@[simp] lemma F.ble_fin_pinf (x : ℚ) : F.ble (F.fin x) F.pinf = true := rfl
@[simp] lemma F.ble_pinf_fin (x : ℚ) : F.ble F.pinf (F.fin x) = false := rfl
@[simp] lemma F.ble_ninf_fin (x : ℚ) : F.ble F.ninf (F.fin x) = true := rfl
@[simp] lemma F.ble_fin_ninf (x : ℚ) : F.ble (F.fin x) F.ninf = false := rfl
@[simp] lemma F.ble_pinf_pinf : F.ble F.pinf F.pinf = true := rfl
@[simp] lemma F.ble_ninf_ninf : F.ble F.ninf F.ninf = true := rfl
@[simp] lemma F.ble_ninf_pinf : F.ble F.ninf F.pinf = true := rfl
@[simp] lemma F.ble_pinf_ninf : F.ble F.pinf F.ninf = false := rfl
@[simp] lemma F.blt_fin_pinf (x : ℚ) : F.blt (F.fin x) F.pinf = true := rfl
@[simp] lemma F.blt_pinf_fin (x : ℚ) : F.blt F.pinf (F.fin x) = false := rfl
@[simp] lemma F.blt_ninf_fin (x : ℚ) : F.blt F.ninf (F.fin x) = true := rfl
@[simp] lemma F.blt_fin_ninf (x : ℚ) : F.blt (F.fin x) F.ninf = false := rfl
@[simp] lemma F.blt_pinf_pinf : F.blt F.pinf F.pinf = false := rfl
@[simp] lemma F.blt_ninf_ninf : F.blt F.ninf F.ninf = false := rfl
@[simp] lemma F.blt_ninf_pinf : F.blt F.ninf F.pinf = true := rfl
@[simp] lemma F.blt_pinf_ninf : F.blt F.pinf F.ninf = false := rfl

lemma F.ble_trans {a b c : F} (h1 : F.ble a b = true) (h2 : F.ble b c = true) :
    F.ble a c = true := by
  cases a <;> cases b <;> cases c <;> simp_all <;> linarith

lemma F.blt_ble_trans {a b c : F} (h1 : F.blt a b = true) (h2 : F.ble b c = true) :
    F.blt a c = true := by
  cases a <;> cases b <;> cases c <;> simp_all <;> linarith

lemma F.ble_of_blt {a b : F} (h : F.blt a b = true) : F.ble a b = true := by
  cases a <;> cases b <;> simp_all <;> linarith

lemma F.blt_of_getD_gt {a b : F}
    (h : (F.pcmp a b).getD Ordering.lt = Ordering.gt) : F.blt b a = true := by
  cases a with
  | nan => simp [F.pcmp] at h
  | pinf =>
    cases b with
    | nan => simp [F.pcmp] at h
    | pinf => simp [F.pcmp] at h
    | ninf => simp
    | fin y => simp
  | ninf =>
    cases b with
    | nan => simp [F.pcmp] at h
    | pinf => simp [F.pcmp] at h
    | ninf => simp [F.pcmp] at h
    | fin y => simp [F.pcmp] at h
  | fin x =>
    cases b with
    | nan => simp [F.pcmp] at h
    | pinf => simp [F.pcmp] at h
    | ninf => simp
    | fin y =>
      rw [F.blt_fin_fin]
      rcases lt_trichotomy x y with hc | hc | hc
      · simp [F.pcmp, hc] at h
      · simp [F.pcmp, hc, lt_irrefl] at h
      · exact hc

lemma F.ble_of_getD_ne_gt {a b : F} (ha : a ≠ F.nan) (hb : b ≠ F.nan)
    (h : (F.pcmp a b).getD Ordering.lt ≠ Ordering.gt) : F.ble a b = true := by
  cases a with
  | nan => exact absurd rfl ha
  | pinf =>
    cases b with
    | nan => exact absurd rfl hb
    | pinf => simp
    | ninf => exact absurd (by simp [F.pcmp]) h
    | fin y => exact absurd (by simp [F.pcmp]) h
  | ninf =>
    cases b with
    | nan => exact absurd rfl hb
    | pinf => simp
    | ninf => simp
    | fin y => simp
  | fin x =>
    cases b with
    | nan => exact absurd rfl hb
    | pinf => simp
    | ninf => exact absurd (by simp [F.pcmp]) h
    | fin y =>
      rw [F.ble_fin_fin]
      rcases lt_trichotomy x y with hc | hc | hc
      · exact hc.le
      · exact hc.le
      · exact absurd (by simp [F.pcmp, not_lt.mpr hc.le, ne_of_gt hc]) h

lemma F.ble_refl {a : F} (ha : a ≠ F.nan) : F.ble a a = true := by
  cases a <;> simp_all

/-! ### `max_by` fold lemmas -/

lemma foldl_max_mem {α : Type _} (f : α → α → α)
    (hf : ∀ a y, f a y = a ∨ f a y = y) :
    ∀ (xs : List α) (acc : α), xs.foldl f acc ∈ acc :: xs := by
  intro xs
  induction xs with
  | nil => intro acc; simp
  | cons y ys ih =>
    intro acc
    simp only [List.foldl_cons]
    rcases List.mem_cons.mp (ih (f acc y)) with h | h
    · rw [h]
      rcases hf acc y with h2 | h2 <;> rw [h2] <;> simp
    · exact List.mem_cons.mpr (Or.inr (List.mem_cons.mpr (Or.inr h)))

lemma foldl_maxStep_decomp {α : Type _} (k : α → F) :
    ∀ (xs : List α) (acc : α) (pre post : List α),
      (∀ c ∈ pre, F.ble (k c) (k acc) = true) →
      (∀ c ∈ post, F.blt (k c) (k acc) = true) →
      (∀ c ∈ xs, k c ≠ F.nan) → k acc ≠ F.nan →
      ∃ pre' post',
        pre' ++ (xs.foldl (maxStep k) acc) :: post' = pre ++ acc :: post ++ xs ∧
        (∀ c ∈ pre', F.ble (k c) (k (xs.foldl (maxStep k) acc)) = true) ∧
        (∀ c ∈ post', F.blt (k c) (k (xs.foldl (maxStep k) acc)) = true) ∧
        k (xs.foldl (maxStep k) acc) ≠ F.nan := by
  intro xs
  induction xs with
  | nil =>
    intro acc pre post hpre hpost _ hacc
    exact ⟨pre, post, by simp, hpre, hpost, hacc⟩
  | cons y ys ih =>
    intro acc pre post hpre hpost hxs hacc
    have hy : k y ≠ F.nan := hxs y (List.mem_cons_self y ys)
    have hys : ∀ c ∈ ys, k c ≠ F.nan := fun c hc => hxs c (List.mem_cons_of_mem y hc)
    simp only [List.foldl_cons]
    by_cases hgt : (F.pcmp (k acc) (k y)).getD Ordering.lt = Ordering.gt
    · have hstep : maxStep k acc y = acc := by simp [maxStep, hgt]
      rw [hstep]
      have hylt : F.blt (k y) (k acc) = true := F.blt_of_getD_gt hgt
      obtain ⟨pre', post', heq, hb1, hb2, hb3⟩ :=
        ih acc pre (post ++ [y]) hpre
          (by
            intro c hc
            rcases List.mem_append.mp hc with h | h
            · exact hpost c h
            · simp at h; subst h; exact hylt)
          hys hacc
      refine ⟨pre', post', ?_, hb1, hb2, hb3⟩
      rw [heq]
      simp
    · have hstep : maxStep k acc y = y := by simp [maxStep, hgt]
      rw [hstep]
      have hle : F.ble (k acc) (k y) = true := F.ble_of_getD_ne_gt hacc hy hgt
      obtain ⟨pre', post', heq, hb1, hb2, hb3⟩ :=
        ih y (pre ++ acc :: post)
          []
          (by
            intro c hc
            rcases List.mem_append.mp hc with h | h
            · exact F.ble_trans (hpre c h) hle
            · rcases List.mem_cons.mp h with h2 | h2
              · subst h2; exact hle
              · exact F.ble_trans (F.ble_of_blt (hpost c h2)) hle)
          (by intro c hc; simp at hc)
          hys hy
      refine ⟨pre', post', ?_, hb1, hb2, hb3⟩
      rw [heq]
      simp

lemma foldl_selStep_unvisited {α : Type _} (vis : α → Nat) (sc : α → F)
    (P : α → Prop) (hnan : ∀ c, P c → vis c = 0 → sc c = F.nan) :
    ∀ (xs : List α) (acc : α), P acc → (∀ c ∈ xs, P c) →
      vis (xs.foldl (selStep vis sc) acc) = 0 ∨
        (vis acc ≠ 0 ∧ ∀ c ∈ xs, vis c ≠ 0) := by
  intro xs
  induction xs with
  | nil =>
    intro acc _ _
    by_cases h : vis acc = 0
    · exact Or.inl h
    · exact Or.inr ⟨h, by simp⟩
  | cons y ys ih =>
    intro acc hPacc hPxs
    have hPy : P y := hPxs y (List.mem_cons_self y ys)
    have hPys : ∀ c ∈ ys, P c := fun c hc => hPxs c (List.mem_cons_of_mem y hc)
    simp only [List.foldl_cons]
    by_cases ha : vis acc = 0
    · have hstep : selStep vis sc acc y = acc := by simp [selStep, ha]
      rw [hstep]
      rcases ih acc hPacc hPys with h | h
      · exact Or.inl h
      · exact absurd ha h.1
    · by_cases hy : vis y = 0
      · have hstep : selStep vis sc acc y = y := by
          have hsc : sc y = F.nan := hnan y hPy hy
          simp [selStep, ha, hsc]
        rw [hstep]
        rcases ih y hPy hPys with h | h
        · exact Or.inl h
        · exact absurd hy h.1
      · have hmem : selStep vis sc acc y = acc ∨ selStep vis sc acc y = y := by
          unfold selStep
          by_cases hc : (if vis acc = 0 then Ordering.gt
              else (F.pcmp (sc acc) (sc y)).getD Ordering.lt) = Ordering.gt
          · exact Or.inl (if_pos hc)
          · exact Or.inr (if_neg hc)
        rcases ih (selStep vis sc acc y) (by rcases hmem with h | h <;> rw [h] <;> assumption)
            hPys with h | h
        · exact Or.inl h
        · refine Or.inr ⟨ha, ?_⟩
          intro c hc
          rcases List.mem_cons.mp hc with h2 | h2
          · subst h2; exact hy
          · exact h.2 c h2

/-! ### Enumeration and expansion lemmas -/

lemma idxs_zero (L : Nat) : idxs L 0 = [] := rfl

lemma idxs_succ (L n : Nat) : idxs L (n + 1) = L :: idxs (L + 1) n := rfl

lemma length_idxs : ∀ (n L : Nat), (idxs L n).length = n := by
  intro n
  induction n with
  | zero => intro L; rfl
  | succ m ih => intro L; simpa [idxs] using ih (L + 1)

lemma mem_idxs : ∀ (n L c : Nat), c ∈ idxs L n ↔ L ≤ c ∧ c < L + n := by
  intro n
  induction n with
  | zero => intro L c; simp [idxs]
  | succ m ih => intro L c; simp [idxs, ih (L + 1) c]; omega

lemma runEnum_zero (ops : StateOps T S) (s : S) : runEnum ops 0 s = ([], s) := rfl

lemma runEnum_succ_none (ops : StateOps T S) (fuel : Nat) (s : S)
    (h : ops.next_action s = none) : runEnum ops (fuel + 1) s = ([], s) := by
  simp [runEnum, h]

lemma runEnum_succ_some (ops : StateOps T S) (fuel : Nat) (s : S) (a : T)
    (h : ops.next_action s = some a) :
    runEnum ops (fuel + 1) s =
      ((a, (ops.do_action s a).2) :: (runEnum ops fuel (ops.do_action s a).1).1,
        (runEnum ops fuel (ops.do_action s a).1).2) := by
  simp [runEnum, h]

lemma Tree.add_node_spec (t : Tree T S) (n : Node T S) (i : Nat)
    (hi : i < t.nodes.length) :
    (t.add_node n i).2 = t.nodes.length ∧
    ((t.add_node n i).1).nodes.length = t.nodes.length + 1 ∧
    ((t.add_node n i).1).size = t.size + 1 ∧
    ((t.add_node n i).1).learning_rate = t.learning_rate ∧
    ((t.add_node n i).1).nd i =
      { t.nd i with children := (t.nd i).children ++ [t.nodes.length] } ∧
    (∀ j, j ≠ i → j < t.nodes.length → ((t.add_node n i).1).nd j = t.nd j) ∧
    ((t.add_node n i).1).nd t.nodes.length = { n with parent := some i } := by
  have hfst : (t.add_node n i).1 =
      Tree.upd ⟨t.nodes ++ [{ n with parent := some i }], t.learning_rate, t.size + 1⟩
        i (fun p => { p with children := p.children ++ [t.nodes.length] }) := rfl
  have hsnd : (t.add_node n i).2 = t.nodes.length := rfl
  set n' : Node T S := { n with parent := some i } with hn'
  set t1 : Tree T S := ⟨t.nodes ++ [n'], t.learning_rate, t.size + 1⟩ with ht1
  have hlen1 : t1.nodes.length = t.nodes.length + 1 := by simp [ht1]
  have hnd1 : ∀ j, j < t.nodes.length → t1.nd j = t.nd j := by
    intro j hj
    show (t.nodes ++ [n']).getD j default = t.nodes.getD j default
    exact getD_append_left default t.nodes [n'] j hj
  have hndL : t1.nd t.nodes.length = n' := by
    show (t.nodes ++ [n']).getD t.nodes.length default = n'
    exact getD_append_self default t.nodes n'
  refine ⟨hsnd, ?_, ?_, ?_, ?_, ?_, ?_⟩
  · rw [hfst]; simp [Tree.length_upd, hlen1]
  · rw [hfst]; rfl
  · rw [hfst]; rfl
  · rw [hfst]
    rw [Tree.nd_upd_self t1 i _ (by omega), hnd1 i hi]
  · intro j hji hj
    rw [hfst, Tree.nd_upd_ne t1 i j _ hji, hnd1 j hj]
  · rw [hfst, Tree.nd_upd_ne t1 i t.nodes.length _ (by omega), hndL]

lemma Tree.expandLoop_spec (ops : StateOps T S) :
    ∀ (fuel : Nat) (t : Tree T S) (i : Nat) (s : S),
      i < t.nodes.length →
      ops.next_action (runEnum ops fuel s).2 = none →
      (Tree.expandLoop ops fuel t i s).nodes.length
          = t.nodes.length + (runEnum ops fuel s).1.length ∧
      (Tree.expandLoop ops fuel t i s).nd i =
        { t.nd i with children :=
            (t.nd i).children ++ idxs t.nodes.length (runEnum ops fuel s).1.length } ∧
      (∀ k, k < (runEnum ops fuel s).1.length →
        ((Tree.expandLoop ops fuel t i s).nd (t.nodes.length + k)).visits = 0 ∧
        ((Tree.expandLoop ops fuel t i s).nd (t.nodes.length + k)).total_reward = F.fin 0 ∧
        ((Tree.expandLoop ops fuel t i s).nd (t.nodes.length + k)).children = [] ∧
        ((Tree.expandLoop ops fuel t i s).nd (t.nodes.length + k)).parent = some i) ∧
      (∀ j, j ≠ i → j < t.nodes.length → (Tree.expandLoop ops fuel t i s).nd j = t.nd j) ∧
      (Tree.expandLoop ops fuel t i s).size = t.size + (runEnum ops fuel s).1.length ∧
      (Tree.expandLoop ops fuel t i s).learning_rate = t.learning_rate := by
  intro fuel
  induction fuel with
  | zero =>
    intro t i s hi _
    refine ⟨by simp [Tree.expandLoop, runEnum], ?_, by simp [runEnum], ?_, ?_, ?_⟩
    · simp [Tree.expandLoop, runEnum, idxs]
    · intro j _ _; simp [Tree.expandLoop]
    · simp [Tree.expandLoop, runEnum]
    · simp [Tree.expandLoop]
  | succ fuel ih =>
    intro t i s hi hex
    cases h : ops.next_action s with
    | none =>
      have hrun : runEnum ops (fuel + 1) s = ([], s) := runEnum_succ_none ops fuel s h
      have hloop : Tree.expandLoop ops (fuel + 1) t i s = t := by
        simp [Tree.expandLoop, h]
      rw [hloop, hrun]
      refine ⟨by simp, ?_, by simp, ?_, by simp, rfl⟩
      · simp [idxs]
      · intro j _ _; rfl
    | some a =>
      have hrun := runEnum_succ_some ops fuel s a h
      set s1 := (ops.do_action s a).1 with hs1
      set st := (ops.do_action (t.nd i).state a).1 with hst
      set t1 := (t.add_node (Node.new a st) i).1 with ht1
      have hloop : Tree.expandLoop ops (fuel + 1) t i s
          = Tree.expandLoop ops fuel t1 i s1 := by
        simp [Tree.expandLoop, h]
      obtain ⟨-, hlen1, hsize1, hlr1, hndi1, hndj1, hndL1⟩ :=
        t.add_node_spec (Node.new a st) i hi
      rw [← ht1] at hlen1 hsize1 hlr1 hndi1 hndj1 hndL1
      have hex1 : ops.next_action (runEnum ops fuel s1).2 = none := by
        rw [hrun] at hex; exact hex
      have hi1 : i < t1.nodes.length := by omega
      obtain ⟨clen, cndi, cnew, cndj, csize, clr⟩ := ih t1 i s1 hi1 hex1
      have hN : (runEnum ops (fuel + 1) s).1.length
          = (runEnum ops fuel s1).1.length + 1 := by rw [hrun]; simp
      set N := (runEnum ops fuel s1).1.length with hNdef
      set L := t.nodes.length with hL
      have hL1 : t1.nodes.length = L + 1 := hlen1
      rw [hloop, hN]
      refine ⟨by omega, ?_, ?_, ?_, by omega, by rw [clr, hlr1]⟩
      · rw [cndi, hndi1, hL1]
        simp [idxs_succ, List.append_assoc]
      · intro k hk
        cases k with
        | zero =>
          have : (Tree.expandLoop ops fuel t1 i s1).nd (L + 0) = t1.nd L := by
            have hLne : L ≠ i := by omega
            have hLlt : L < t1.nodes.length := by omega
            simpa using cndj L hLne (by omega)
          rw [this, hndL1]
          simp [Node.new]
        | succ k' =>
          have hk' : k' < N := by omega
          have harith : L + (k' + 1) = t1.nodes.length + k' := by omega
          have := cnew k' hk'
          rw [harith]
          exact this
      · intro j hji hj
        rw [cndj j hji (by omega), hndj1 j hji hj]

/-! ### Backpropagation lemmas -/

lemma Tree.parentOf_eq_some (t : Tree T S) (i p : Nat) :
    t.parentOf i = some p ↔ (t.nd i).parent = some p ∧ p < t.nodes.length := by
  unfold Tree.parentOf
  cases hq : (t.nd i).parent with
  | none => simp
  | some q =>
    by_cases hlt : q < t.nodes.length
    · simp [hlt]
      intro h
      omega
    · simp [hlt]
      intro h
      omega

lemma Tree.parentOf_eq_none_of_parent_none (t : Tree T S) (i : Nat)
    (h : (t.nd i).parent = none) : t.parentOf i = none := by
  unfold Tree.parentOf
  rw [h]

lemma Tree.backpropLoop_zero (v : F) (t : Tree T S) (i : Nat) :
    Tree.backpropLoop v 0 t i = t.bpStep i v := rfl

lemma Tree.backpropLoop_succ (v : F) (fuel : Nat) (t : Tree T S) (i : Nat) :
    Tree.backpropLoop v (fuel + 1) t i =
      match (t.bpStep i v).parentOf i with
      | none => t.bpStep i v
      | some p => Tree.backpropLoop v fuel (t.bpStep i v) p := rfl

lemma Tree.nd_bpStep_self (t : Tree T S) (i : Nat) (v : F) (h : i < t.nodes.length) :
    (t.bpStep i v).nd i = bpFun v (t.nd i) :=
  Tree.nd_upd_self t i (bpFun v) h

lemma Tree.nd_bpStep_ne (t : Tree T S) (i j : Nat) (v : F) (h : j ≠ i) :
    (t.bpStep i v).nd j = t.nd j :=
  Tree.nd_upd_ne t i j (bpFun v) h

lemma Tree.parentOf_bpStep (t : Tree T S) (i j : Nat) (v : F) :
    (t.bpStep i v).parentOf j = t.parentOf j :=
  Tree.parentOf_upd t i j (bpFun v) (fun _ => rfl)

lemma Tree.parent_nd_bpStep (t : Tree T S) (i j : Nat) (v : F) :
    ((t.bpStep i v).nd j).parent = (t.nd j).parent :=
  Tree.parent_nd_upd t i j (bpFun v) (fun _ => rfl)

lemma Tree.path_zero (t : Tree T S) (i : Nat) : Tree.path 0 t i = [i] := rfl

lemma Tree.path_succ_none (fuel : Nat) (t : Tree T S) (i : Nat)
    (h : t.parentOf i = none) : Tree.path (fuel + 1) t i = [i] := by
  simp [Tree.path, h]

lemma Tree.path_succ_some (fuel : Nat) (t : Tree T S) (i p : Nat)
    (h : t.parentOf i = some p) :
    Tree.path (fuel + 1) t i = i :: Tree.path fuel t p := by
  simp [Tree.path, h]

lemma Tree.path_upd (f : Node T S → Node T S) (hf : ∀ n, (f n).parent = n.parent) :
    ∀ (fuel : Nat) (t : Tree T S) (j i : Nat),
      Tree.path fuel (t.upd j f) i = Tree.path fuel t i := by
  intro fuel
  induction fuel with
  | zero => intro t j i; rfl
  | succ m ih =>
    intro t j i
    have hp : (t.upd j f).parentOf i = t.parentOf i := Tree.parentOf_upd t j i f hf
    cases h : t.parentOf i with
    | none => rw [Tree.path_succ_none m _ i (by rw [hp, h]), Tree.path_succ_none m t i h]
    | some p =>
      rw [Tree.path_succ_some m _ i p (by rw [hp, h]), Tree.path_succ_some m t i p h,
        ih t j p]

lemma Tree.parentOf_lt (t : Tree T S)
    (Hpar : ∀ j ∈ List.range t.nodes.length, 0 < j → (t.nd j).parent.getD j < j)
    (Hroot : (t.nd 0).parent = none) (i p : Nat) (h : t.parentOf i = some p) :
    0 < i ∧ i < t.nodes.length ∧ p < i ∧ p < t.nodes.length := by
  obtain ⟨hq, hlt⟩ := (t.parentOf_eq_some i p).mp h
  have hiL : i < t.nodes.length := by
    by_contra hiL
    have : t.nd i = default := getD_ge_length default t.nodes i (by omega)
    rw [this] at hq
    simp [default] at hq
  have hi0 : 0 < i := by
    rcases Nat.eq_zero_or_pos i with h0 | h0
    · subst h0; rw [Hroot] at hq; exact absurd hq (by simp)
    · exact h0
  have := Hpar i (List.mem_range.mpr hiL) hi0
  rw [hq] at this
  simp at this
  exact ⟨hi0, hiL, this, hlt⟩

lemma Tree.path_le (t : Tree T S)
    (Hpar : ∀ j ∈ List.range t.nodes.length, 0 < j → (t.nd j).parent.getD j < j)
    (Hroot : (t.nd 0).parent = none) :
    ∀ (fuel i : Nat), ∀ j ∈ Tree.path fuel t i, j ≤ i := by
  intro fuel
  induction fuel with
  | zero => intro i j hj; rw [Tree.path_zero] at hj; simp at hj; omega
  | succ m ih =>
    intro i j hj
    cases h : t.parentOf i with
    | none =>
      rw [Tree.path_succ_none m t i h] at hj
      simp at hj; omega
    | some p =>
      rw [Tree.path_succ_some m t i p h] at hj
      rcases List.mem_cons.mp hj with h2 | h2
      · omega
      · have hp := (t.parentOf_lt Hpar Hroot i p h).2.2.1
        have := ih p j h2
        omega

lemma Tree.path_nodup (t : Tree T S)
    (Hpar : ∀ j ∈ List.range t.nodes.length, 0 < j → (t.nd j).parent.getD j < j)
    (Hroot : (t.nd 0).parent = none) :
    ∀ (fuel i : Nat), (Tree.path fuel t i).Nodup := by
  intro fuel
  induction fuel with
  | zero => intro i; simp [Tree.path_zero]
  | succ m ih =>
    intro i
    cases h : t.parentOf i with
    | none => simp [Tree.path_succ_none m t i h]
    | some p =>
      rw [Tree.path_succ_some m t i p h]
      refine List.nodup_cons.mpr ⟨?_, ih p⟩
      intro hmem
      have h1 := t.path_le Hpar Hroot m p i hmem
      have h2 := (t.parentOf_lt Hpar Hroot i p h).2.2.1
      omega

lemma Tree.path_head (fuel : Nat) (t : Tree T S) (i : Nat) :
    (Tree.path fuel t i).head? = some i := by
  cases fuel with
  | zero => rfl
  | succ m => cases h : t.parentOf i with
    | none => rw [Tree.path_succ_none m t i h]; rfl
    | some p => rw [Tree.path_succ_some m t i p h]; rfl

lemma Tree.path_root_mem (t : Tree T S)
    (Hpar : ∀ j ∈ List.range t.nodes.length, 0 < j → (t.nd j).parent.getD j < j)
    (Hroot : (t.nd 0).parent = none) :
    ∀ (fuel i : Nat), i < t.nodes.length → i ≤ fuel → 0 ∈ Tree.path fuel t i := by
  intro fuel
  induction fuel with
  | zero =>
    intro i _ hif
    have : i = 0 := by omega
    subst this
    simp [Tree.path_zero]
  | succ m ih =>
    intro i hiL hif
    rcases Nat.eq_zero_or_pos i with h0 | h0
    · subst h0
      have hp : t.parentOf 0 = none := t.parentOf_eq_none_of_parent_none 0 Hroot
      simp [Tree.path_succ_none m t 0 hp]
    · have hgd := Hpar i (List.mem_range.mpr hiL) h0
      cases hq : (t.nd i).parent with
      | none => rw [hq] at hgd; simp at hgd
      | some q =>
        rw [hq] at hgd
        simp at hgd
        have hqL : q < t.nodes.length := by omega
        have hp : t.parentOf i = some q := (t.parentOf_eq_some i q).mpr ⟨hq, hqL⟩
        rw [Tree.path_succ_some m t i q hp]
        exact List.mem_cons_of_mem i (ih q hqL (by omega))

lemma Tree.backpropLoop_spec (v : F) :
    ∀ (fuel : Nat) (t : Tree T S) (i : Nat),
      (∀ j ∈ List.range t.nodes.length, 0 < j → (t.nd j).parent.getD j < j) →
      (t.nd 0).parent = none →
      i < t.nodes.length →
      (∀ j ∈ Tree.path fuel t i,
        (Tree.backpropLoop v fuel t i).nd j = bpFun v (t.nd j)) ∧
      (∀ j, j ∉ Tree.path fuel t i → (Tree.backpropLoop v fuel t i).nd j = t.nd j) ∧
      (Tree.backpropLoop v fuel t i).nodes.length = t.nodes.length ∧
      (Tree.backpropLoop v fuel t i).size = t.size ∧
      (Tree.backpropLoop v fuel t i).learning_rate = t.learning_rate := by
  intro fuel
  induction fuel with
  | zero =>
    intro t i Hpar Hroot hi
    refine ⟨?_, ?_, Tree.length_upd t i _, rfl, rfl⟩
    · intro j hj
      rw [Tree.path_zero] at hj
      simp at hj
      subst hj
      exact Tree.nd_upd_self t j (bpFun v) hi
    · intro j hj
      rw [Tree.path_zero] at hj
      simp at hj
      exact Tree.nd_upd_ne t i j (bpFun v) hj
  | succ m ih =>
    intro t i Hpar Hroot hi
    have hpeq : (t.bpStep i v).parentOf i = t.parentOf i := t.parentOf_bpStep i i v
    cases hp : t.parentOf i with
    | none =>
      have hloop : Tree.backpropLoop v (m + 1) t i = t.bpStep i v := by
        rw [Tree.backpropLoop_succ, hpeq, hp]
      rw [hloop, Tree.path_succ_none m t i hp]
      refine ⟨?_, ?_, Tree.length_upd t i _, rfl, rfl⟩
      · intro j hj
        simp at hj
        subst hj
        exact Tree.nd_bpStep_self t j v hi
      · intro j hj
        simp at hj
        exact Tree.nd_bpStep_ne t i j v hj
    | some p =>
      have hloop : Tree.backpropLoop v (m + 1) t i
          = Tree.backpropLoop v m (t.bpStep i v) p := by
        rw [Tree.backpropLoop_succ, hpeq, hp]
      obtain ⟨hi0, hiL, hpi, hpL⟩ := t.parentOf_lt Hpar Hroot i p hp
      have hlen1 : (t.bpStep i v).nodes.length = t.nodes.length := Tree.length_upd t i _
      have Hpar1 : ∀ j ∈ List.range (t.bpStep i v).nodes.length, 0 < j →
          ((t.bpStep i v).nd j).parent.getD j < j := by
        intro j hj h0
        rw [Tree.parent_nd_bpStep t i j v]
        exact Hpar j (by rw [hlen1] at hj; exact hj) h0
      have Hroot1 : ((t.bpStep i v).nd 0).parent = none := by
        rw [Tree.parent_nd_bpStep t i 0 v]; exact Hroot
      obtain ⟨hupd, hkeep, hlen2, hsize2, hlr2⟩ :=
        ih (t.bpStep i v) p Hpar1 Hroot1 (by omega)
      have hpatheq : Tree.path m (t.bpStep i v) p = Tree.path m t p :=
        Tree.path_upd (bpFun v) (fun _ => rfl) m t i p
      rw [hpatheq] at hupd hkeep
      have htail_le : ∀ j ∈ Tree.path m t p, j ≤ p := t.path_le Hpar Hroot m p
      rw [hloop, Tree.path_succ_some m t i p hp]
      refine ⟨?_, ?_, by rw [hlen2, hlen1], by rw [hsize2]; rfl, by rw [hlr2]; rfl⟩
      · intro j hj
        rcases List.mem_cons.mp hj with h2 | h2
        · subst h2
          have hnotin : j ∉ Tree.path m t p := by
            intro hmem
            have := htail_le j hmem
            omega
          rw [hkeep j hnotin]
          exact Tree.nd_bpStep_self t j v hi
        · have hji : j ≠ i := by
            have := htail_le j h2
            omega
          rw [hupd j h2, Tree.nd_bpStep_ne t i j v hji]
      · intro j hj
        have hji : j ≠ i := fun h => hj (by rw [h]; exact List.mem_cons_self i _)
        have hjt : j ∉ Tree.path m t p := fun h => hj (List.mem_cons_of_mem i h)
        rw [hkeep j hjt, Tree.nd_bpStep_ne t i j v hji]

/-! ### Selection lemmas -/

lemma F.add_nan_left (x : F) : F.add F.nan x = F.nan := by cases x <;> rfl

lemma F.add_fin_fin (x y : ℚ) : F.add (F.fin x) (F.fin y) = F.fin (x + y) := rfl

lemma maxStep_or {α : Type _} (k : α → F) (a y : α) :
    maxStep k a y = a ∨ maxStep k a y = y := by
  unfold maxStep
  by_cases h : (F.pcmp (k a) (k y)).getD Ordering.lt = Ordering.gt
  · exact Or.inl (if_pos h)
  · exact Or.inr (if_neg h)

lemma selStep_or {α : Type _} (vis : α → Nat) (sc : α → F) (a y : α) :
    selStep vis sc a y = a ∨ selStep vis sc a y = y := by
  unfold selStep
  by_cases h : (if vis a = 0 then Ordering.gt
      else (F.pcmp (sc a) (sc y)).getD Ordering.lt) = Ordering.gt
  · exact Or.inl (if_pos h)
  · exact Or.inr (if_neg h)

lemma Tree.best_child_eq_foldl (t : Tree T S) (i x : Nat) (xs : List Nat)
    (h : (t.nd i).children = x :: xs) :
    t.best_child i =
      some (xs.foldl (maxStep (fun c => (t.nd c).total_reward)) x) := by
  unfold Tree.best_child
  rw [h]
  rfl

lemma Tree.selectChild_eq_foldl (lnF sqrtF : F → F) (t : Tree T S) (i x : Nat)
    (xs : List Nat) (h : (t.nd i).children = x :: xs) :
    t.selectChild lnF sqrtF i =
      some (xs.foldl (selStep (fun c => (t.nd c).visits)
        (fun c => t.score lnF sqrtF c t.learning_rate)) x) := by
  unfold Tree.selectChild
  rw [h]
  rfl

lemma Tree.score_nan_of_unvisited (lnF sqrtF : F → F) (t : Tree T S) (c p : Nat)
    (hp : t.parentOf c = some p) (hv : (t.nd c).visits = 0)
    (hr : (t.nd c).total_reward = F.fin 0) (cst : F) :
    t.score lnF sqrtF c cst = F.nan := by
  unfold Tree.score
  simp only [hp]
  rw [hv, hr]
  have hdiv : F.div (F.fin 0) (F.fin ((0 : Nat) : ℚ)) = F.nan := by
    norm_num [F.div]
  rw [hdiv, F.add_nan_left]

lemma Tree.child_parentOf (t : Tree T S) (hwf : WF t) (i c : Nat)
    (hi : i < t.nodes.length) (hc : c ∈ (t.nd i).children) :
    ∃ q, t.parentOf c = some q := by
  obtain ⟨-, -, h3, h4⟩ := hwf
  obtain ⟨hic, hcL⟩ := h3 i (List.mem_range.mpr hi) c hc
  have hc0 : 0 < c := by omega
  have hgd := h4 c (List.mem_range.mpr hcL) hc0
  cases hq : (t.nd c).parent with
  | none => rw [hq] at hgd; simp at hgd
  | some q =>
    rw [hq] at hgd
    simp at hgd
    exact ⟨q, (t.parentOf_eq_some c q).mpr ⟨hq, by omega⟩⟩

lemma Tree.selectChild_unvisited (lnF sqrtF : F → F) (t : Tree T S)
    (hwf : WF t) (hz : ZeroInv t) (i : Nat) (hi : i < t.nodes.length)
    (hex : ∃ c ∈ (t.nd i).children, (t.nd c).visits = 0) :
    ∃ c, t.selectChild lnF sqrtF i = some c ∧ c ∈ (t.nd i).children ∧
      (t.nd c).visits = 0 := by
  obtain ⟨c0, hc0, hc0v⟩ := hex
  cases hch : (t.nd i).children with
  | nil => rw [hch] at hc0; simp at hc0
  | cons x xs =>
    set vis : Nat → Nat := fun c => (t.nd c).visits with hvis
    set sc : Nat → F := fun c => t.score lnF sqrtF c t.learning_rate with hsc
    set r := xs.foldl (selStep vis sc) x with hr
    have hsel : t.selectChild lnF sqrtF i = some r :=
      t.selectChild_eq_foldl lnF sqrtF i x xs hch
    have hmem : r ∈ x :: xs := foldl_max_mem (selStep vis sc) (selStep_or vis sc) xs x
    have hnan : ∀ c, c ∈ (t.nd i).children → vis c = 0 → sc c = F.nan := by
      intro c hc hcv
      have hcL : c < t.nodes.length := (hwf.2.2.1 i (List.mem_range.mpr hi) c hc).2
      obtain ⟨q, hq⟩ := t.child_parentOf hwf i c hi hc
      have hcr : (t.nd c).total_reward = F.fin 0 :=
        hz c (List.mem_range.mpr hcL) hcv
      exact t.score_nan_of_unvisited lnF sqrtF c q hq hcv hcr t.learning_rate
    have hdisj :=
      foldl_selStep_unvisited vis sc (fun c => c ∈ (t.nd i).children) hnan xs x
        (by rw [hch]; exact List.mem_cons_self x xs)
        (by intro c hc; rw [hch]; exact List.mem_cons_of_mem x hc)
    rcases hdisj with hzero | ⟨hxnz, hallnz⟩
    · exact ⟨r, hsel, hmem, hzero⟩
    · exfalso
      rw [hch] at hc0
      rcases List.mem_cons.mp hc0 with h2 | h2
      · subst h2; exact hxnz hc0v
      · exact hallnz c0 h2 hc0v

lemma Tree.selectLoop_succ (lnF sqrtF : F → F) (t : Tree T S) (fuel i : Nat) :
    t.selectLoop lnF sqrtF (fuel + 1) i =
      if (t.nd i).children = [] then i
      else
        match t.selectChild lnF sqrtF i with
        | some c => t.selectLoop lnF sqrtF fuel c
        | none => i := rfl

lemma Tree.selectLoop_leaf (lnF sqrtF : F → F) (t : Tree T S) (hwf : WF t) :
    ∀ (fuel i : Nat), i < t.nodes.length → t.nodes.length - i ≤ fuel →
      (t.nd (t.selectLoop lnF sqrtF fuel i)).children = [] := by
  intro fuel
  induction fuel with
  | zero =>
    intro i hi hif
    exact absurd hi (by omega)
  | succ m ih =>
    intro i hi hif
    rw [Tree.selectLoop_succ]
    by_cases hch : (t.nd i).children = []
    · rw [if_pos hch]; exact hch
    · rw [if_neg hch]
      obtain ⟨x, xs, hxs⟩ := List.exists_cons_of_ne_nil hch
      have hsel := t.selectChild_eq_foldl lnF sqrtF i x xs hxs
      rw [hsel]
      set r := xs.foldl (selStep (fun c => (t.nd c).visits)
        (fun c => t.score lnF sqrtF c t.learning_rate)) x with hrdef
      have hmem : r ∈ (t.nd i).children := by
        rw [hxs]
        exact foldl_max_mem _ (selStep_or _ _) xs x
      obtain ⟨hir, hrL⟩ := hwf.2.2.1 i (List.mem_range.mpr hi) r hmem
      exact ih r hrL (by omega)

/-! ### Simulation lemmas -/

lemma simLoop_eq_runEnum (ops : StateOps T S) :
    ∀ (fuel : Nat) (s : S) (acc : F),
      simLoop ops fuel s acc = ((runEnum ops fuel s).1.map Prod.snd).foldl F.add acc := by
  intro fuel
  induction fuel with
  | zero => intro s acc; rfl
  | succ m ih =>
    intro s acc
    cases h : ops.next_action s with
    | none => simp [simLoop, h, runEnum_succ_none ops m s h]
    | some a =>
      rw [runEnum_succ_some ops m s a h]
      simp only [List.map_cons, List.foldl_cons]
      have hstep : simLoop ops (m + 1) s acc
          = simLoop ops m (ops.do_action s a).1 (F.add acc (ops.do_action s a).2) := by
        simp [simLoop, h]
      rw [hstep]
      exact ih (ops.do_action s a).1 (F.add acc (ops.do_action s a).2)

lemma foldl_add_fin_const (R : ℚ) :
    ∀ (l : List F), (∀ r ∈ l, r = F.fin R) →
      ∀ q : ℚ, l.foldl F.add (F.fin q) = F.fin (q + l.length * R) := by
  intro l
  induction l with
  | nil => intro _ q; simp
  | cons r rs ih =>
    intro hall q
    have hr : r = F.fin R := hall r (List.mem_cons_self r rs)
    have hrs : ∀ x ∈ rs, x = F.fin R := fun x hx => hall x (List.mem_cons_of_mem r hx)
    simp only [List.foldl_cons, hr, F.add_fin_fin]
    rw [ih hrs (q + R)]
    congr 1
    simp [List.length_cons]
    ring

lemma runEnum_rewards_const (ops : StateOps T S) (R : ℚ)
    (hR : ∀ (s : S) (a : T), (ops.do_action s a).2 = F.fin R) :
    ∀ (fuel : Nat) (s : S), ∀ r ∈ (runEnum ops fuel s).1, r.2 = F.fin R := by
  intro fuel
  induction fuel with
  | zero => intro s r hr; simp [runEnum_zero] at hr
  | succ m ih =>
    intro s r hr
    cases h : ops.next_action s with
    | none => rw [runEnum_succ_none ops m s h] at hr; simp at hr
    | some a =>
      rw [runEnum_succ_some ops m s a h] at hr
      rcases List.mem_cons.mp hr with h2 | h2
      · rw [h2]; exact hR s a
      · exact ih (ops.do_action s a).1 r h2

/-! ### Size-accounting lemmas -/

lemma Tree.add_node_size_any (t : Tree T S) (n : Node T S) (p : Nat) :
    (t.add_node n p).1.size = t.size + 1 := rfl

lemma Tree.add_node_length_any (t : Tree T S) (n : Node T S) (p : Nat) :
    (t.add_node n p).1.nodes.length = t.nodes.length + 1 := by
  show (listModify _ p (t.nodes ++ [_])).length = t.nodes.length + 1
  rw [length_listModify]
  simp

lemma Tree.expandLoop_sizeInv (ops : StateOps T S) :
    ∀ (fuel : Nat) (t : Tree T S) (i : Nat) (s : S),
      SizeInv t → SizeInv (Tree.expandLoop ops fuel t i s) := by
  intro fuel
  induction fuel with
  | zero => intro t i s h; exact h
  | succ m ih =>
    intro t i s h
    cases ha : ops.next_action s with
    | none => simpa [Tree.expandLoop, ha] using h
    | some a =>
      have hloop : Tree.expandLoop ops (m + 1) t i s =
          Tree.expandLoop ops m ((t.add_node (Node.new a
            (ops.do_action (t.nd i).state a).1) i).1) i (ops.do_action s a).1 := by
        simp [Tree.expandLoop, ha]
      rw [hloop]
      apply ih
      unfold SizeInv
      rw [Tree.add_node_size_any, Tree.add_node_length_any]
      unfold SizeInv at h
      omega

lemma Tree.sizeInv_bpStep (t : Tree T S) (i : Nat) (v : F) (h : SizeInv t) :
    SizeInv (t.bpStep i v) := by
  unfold SizeInv
  show (t.upd i (bpFun v)).size = (t.upd i (bpFun v)).nodes.length
  rw [Tree.size_upd, Tree.length_upd]
  exact h

lemma Tree.backpropLoop_sizeInv (v : F) :
    ∀ (fuel : Nat) (t : Tree T S) (i : Nat),
      SizeInv t → SizeInv (Tree.backpropLoop v fuel t i) := by
  intro fuel
  induction fuel with
  | zero =>
    intro t i h
    rw [Tree.backpropLoop_zero]
    exact t.sizeInv_bpStep i v h
  | succ m ih =>
    intro t i h
    rw [Tree.backpropLoop_succ]
    cases hp : (t.bpStep i v).parentOf i with
    | none => exact t.sizeInv_bpStep i v h
    | some p => exact ih (t.bpStep i v) p (t.sizeInv_bpStep i v h)

lemma Tree.search_sizeInv (ops : StateOps T S) (lnF sqrtF : F → F)
    (efuel sfuel : Nat) :
    ∀ (iters : Nat) (t : Tree T S),
      SizeInv t → SizeInv (Tree.search ops lnF sqrtF efuel sfuel iters t).1 := by
  intro iters
  induction iters with
  | zero => intro t h; exact h
  | succ m ih =>
    intro t h
    show SizeInv (Tree.search ops lnF sqrtF efuel sfuel (m + 1) t).1
    unfold Tree.search
    cases hs : t.select lnF sqrtF with
    | none => exact h
    | some leaf =>
      simp only
      apply ih
      apply Tree.backpropLoop_sizeInv
      by_cases hv : (t.nd leaf).visits > 0
      · simp only [hv, if_true]
        cases hx : Tree.expand ops efuel t leaf with
        | mk t2 res =>
          have ht2 : t2 = Tree.expandLoop ops efuel t leaf (t.nd leaf).state := by
            have : (Tree.expand ops efuel t leaf).1
                = Tree.expandLoop ops efuel t leaf (t.nd leaf).state := rfl
            rw [hx] at this
            exact this
          cases res <;> simp only <;> rw [ht2] <;>
            exact Tree.expandLoop_sizeInv ops efuel t leaf (t.nd leaf).state h
      · simp only [hv, if_false]
        exact h

/-! ### Claims -/

lemma F.ble_add_fin_nonneg {a : F} (ha : a ≠ F.nan) {q : ℚ} (hq : 0 ≤ q) :
    F.ble a (F.add a (F.fin q)) = true := by
  cases a with
  | fin x =>
    rw [F.add_fin_fin, F.ble_fin_fin]
    linarith
  | pinf => rfl
  | ninf => rfl
  | nan => exact absurd rfl ha

/-- C1 fails as stated: on `tW1` the root's two children tie at
`total_reward = 0`, yet `best_child` returns the second child (index 2),
not the first maximal element in insertion order (index 1) — Rust's
`Iterator::max_by` resolves ties to the last element. -/
theorem C1_counterexample :
    (tW1.nd 0).children = [1, 2] ∧
    (tW1.nd 1).total_reward = (tW1.nd 2).total_reward ∧
    tW1.best_child 0 = some 2 ∧ ¬ tW1.best_child 0 = some 1 := by decide

/-- C1 (amended): on a node whose children carry no `NaN` reward,
`best_child` returns `none` when there are no children; otherwise it returns
a child of maximal `total_reward`, with ties broken by the LAST maximal
element in insertion order (everything after the returned child is strictly
smaller, everything before is less or equal). -/
theorem C1_best_child_last_max (t : Tree T S) (i : Nat)
    (hnn : ∀ c ∈ (t.nd i).children, (t.nd c).total_reward ≠ F.nan) :
    ((t.nd i).children = [] → t.best_child i = none) ∧
    ((t.nd i).children ≠ [] →
      ∃ r pre post,
        t.best_child i = some r ∧
        (t.nd i).children = pre ++ r :: post ∧
        (∀ c ∈ pre, F.ble (t.nd c).total_reward (t.nd r).total_reward = true) ∧
        (∀ c ∈ post, F.blt (t.nd c).total_reward (t.nd r).total_reward = true) ∧
        (∀ c ∈ (t.nd i).children,
          F.ble (t.nd c).total_reward (t.nd r).total_reward = true)) := by
  constructor
  · intro h
    unfold Tree.best_child
    rw [h]
    rfl
  · intro h
    obtain ⟨x, xs, hxs⟩ := List.exists_cons_of_ne_nil h
    have hbc := t.best_child_eq_foldl i x xs hxs
    obtain ⟨pre, post, heq, hble, hblt, hnr⟩ :=
      foldl_maxStep_decomp (fun c => (t.nd c).total_reward) xs x [] []
        (by simp) (by simp)
        (fun c hc => hnn c (by rw [hxs]; exact List.mem_cons_of_mem x hc))
        (hnn x (by rw [hxs]; exact List.mem_cons_self x xs))
    have heq' : x :: xs
        = pre ++ (xs.foldl (maxStep (fun c => (t.nd c).total_reward)) x) :: post := by
      simpa using heq.symm
    refine ⟨xs.foldl (maxStep (fun c => (t.nd c).total_reward)) x, pre, post,
      hbc, ?_, hble, hblt, ?_⟩
    · rw [hxs]; exact heq'
    · intro cc hcc
      rw [hxs, heq'] at hcc
      rcases List.mem_append.mp hcc with h1 | h1
      · exact hble cc h1
      · rcases List.mem_cons.mp h1 with h2 | h2
        · subst h2; exact F.ble_refl hnr
        · exact F.ble_of_blt (hblt cc h2)

/-- Witness for C1's amended theorem at the concrete tree `tW1`. -/
theorem C1_witness :
    ∃ r pre post,
      tW1.best_child 0 = some r ∧
      (tW1.nd 0).children = pre ++ r :: post ∧
      (∀ c ∈ pre, F.ble (tW1.nd c).total_reward (tW1.nd r).total_reward = true) ∧
      (∀ c ∈ post, F.blt (tW1.nd c).total_reward (tW1.nd r).total_reward = true) ∧
      (∀ c ∈ (tW1.nd 0).children,
        F.ble (tW1.nd c).total_reward (tW1.nd r).total_reward = true) :=
  (C1_best_child_last_max tW1 0 (by decide)).2 (by decide)

/-- C5: when the parent resolves, `score(c)` is exactly
`total_reward / visits + c * sqrt((2 * ln(parent.visits)) / visits)`;
when no parent resolves it is `0`, and in particular the root of any
well-formed tree scores `0` for every `c`. -/
theorem C5_score_formula (lnF sqrtF : F → F) (t : Tree T S) (i : Nat) (c : F) :
    (∀ p, t.parentOf i = some p →
      t.score lnF sqrtF i c =
        F.add (F.div (t.nd i).total_reward (F.fin ((t.nd i).visits : ℚ)))
          (F.mul c (sqrtF (F.div
            (F.mul (F.fin 2) (lnF (F.fin ((t.nd p).visits : ℚ))))
            (F.fin ((t.nd i).visits : ℚ)))))) ∧
    (t.parentOf i = none → t.score lnF sqrtF i c = F.fin 0) ∧
    (WF t → t.score lnF sqrtF 0 c = F.fin 0) := by
  refine ⟨?_, ?_, ?_⟩
  · intro p hp
    unfold Tree.score
    simp only [hp]
  · intro hp
    unfold Tree.score
    simp only [hp]
  · intro hwf
    have hp : t.parentOf 0 = none := t.parentOf_eq_none_of_parent_none 0 hwf.2.1
    unfold Tree.score
    simp only [hp]

/-- Witness for C5 at the concrete tree `tW2` with the stand-in `ln`/`sqrt`. -/
theorem C5_witness :
    tW2.score lnD sqrtD 1 (F.fin 1) =
      F.add (F.div (tW2.nd 1).total_reward (F.fin ((tW2.nd 1).visits : ℚ)))
        (F.mul (F.fin 1) (sqrtD (F.div
          (F.mul (F.fin 2) (lnD (F.fin ((tW2.nd 0).visits : ℚ))))
          (F.fin ((tW2.nd 1).visits : ℚ))))) ∧
    tW2.score lnD sqrtD 0 (F.fin 1) = F.fin 0 :=
  ⟨(C5_score_formula lnD sqrtD tW2 1 (F.fin 1)).1 0 (by decide),
   (C5_score_formula lnD sqrtD tW2 0 (F.fin 1)).2.2 (by decide)⟩

/-- C8 fails as stated for a negative reward: backpropagating `-1` from
node 2 of `tW1` strictly decreases that node's `total_reward`. -/
theorem C8_counterexample :
    (tW1.nd 2).total_reward = F.fin 0 ∧
    ((tW1.backpropagate 2 (F.fin (-1))).nd 2).total_reward = F.fin (-1) ∧
    F.ble (tW1.nd 2).total_reward
      ((tW1.backpropagate 2 (F.fin (-1))).nd 2).total_reward = false := by
  have h2 : (tW1.nd 2).total_reward = F.fin 0 := by decide
  have hbp : tW1.backpropagate 2 (F.fin (-1))
      = Tree.backpropLoop (F.fin (-1)) tW1.nodes.length tW1 2 := rfl
  have hmem : 2 ∈ Tree.path tW1.nodes.length tW1 2 := by decide
  obtain ⟨hupd, -, -, -, -⟩ :=
    Tree.backpropLoop_spec (F.fin (-1)) tW1.nodes.length tW1 2
      (by decide) (by decide) (by decide)
  have hval : ((tW1.backpropagate 2 (F.fin (-1))).nd 2).total_reward = F.fin (-1) := by
    rw [hbp, hupd 2 hmem]
    show F.add (tW1.nd 2).total_reward (F.fin (-1)) = F.fin (-1)
    rw [h2, F.add_fin_fin]
    norm_num
  refine ⟨h2, hval, ?_⟩
  rw [hval, h2]
  decide

/-- C8 (amended): backpropagating a NONNEGATIVE finite reward `q` leaves
every node's `visits` and `total_reward` at or above their previous values
(`visits` is non-decreasing for every reward; `total_reward` can decrease
when the reward is negative, as the counterexample shows). -/
theorem C8_monotone (t : Tree T S) (i : Nat) (q : ℚ) (hq : 0 ≤ q)
    (hwf : WF t) (hi : i < t.nodes.length)
    (hnn : ∀ j ∈ List.range t.nodes.length, (t.nd j).total_reward ≠ F.nan) :
    ∀ j, j < t.nodes.length →
      (t.nd j).visits ≤ ((t.backpropagate i (F.fin q)).nd j).visits ∧
      F.ble (t.nd j).total_reward
        ((t.backpropagate i (F.fin q)).nd j).total_reward = true := by
  have hbp : t.backpropagate i (F.fin q)
      = Tree.backpropLoop (F.fin q) t.nodes.length t i := rfl
  obtain ⟨hupd, hkeep, -, -, -⟩ :=
    Tree.backpropLoop_spec (F.fin q) t.nodes.length t i hwf.2.2.2 hwf.2.1 hi
  intro j hj
  by_cases hmem : j ∈ Tree.path t.nodes.length t i
  · rw [hbp, hupd j hmem]
    constructor
    · show (t.nd j).visits ≤ (t.nd j).visits + 1
      omega
    · show F.ble (t.nd j).total_reward
        (F.add (t.nd j).total_reward (F.fin q)) = true
      exact F.ble_add_fin_nonneg (hnn j (List.mem_range.mpr hj)) hq
  · rw [hbp, hkeep j hmem]
    exact ⟨le_refl _, F.ble_refl (hnn j (List.mem_range.mpr hj))⟩

/-- Witness for C8's amended theorem on `tW2` with reward `1/2`. -/
theorem C8_witness :
    (tW2.nd 0).visits ≤ ((tW2.backpropagate 1 (F.fin (1 / 2))).nd 0).visits ∧
    F.ble (tW2.nd 0).total_reward
      ((tW2.backpropagate 1 (F.fin (1 / 2))).nd 0).total_reward = true :=
  C8_monotone tW2 1 (1 / 2) (by norm_num) (by decide) (by decide) (by decide)
    0 (by decide)

/-- C10: the built-in selection always returns a node — `select` ends in
`Some(..)` unconditionally, and when the root has no children it returns the
root itself, so the early-stop arm in `search` is never taken for the
default implementation. -/
theorem C10_select_always_some (lnF sqrtF : F → F) (t : Tree T S) :
    (t.select lnF sqrtF).isSome = true ∧
    ((t.nd 0).children = [] → t.select lnF sqrtF = some 0) := by
  constructor
  · rfl
  · intro h
    unfold Tree.select
    cases hfuel : t.nodes.length with
    | zero => rfl
    | succ m => rw [Tree.selectLoop_succ, if_pos h]

/-- Witness for C10 at the childless root tree `tW0`. -/
theorem C10_witness :
    (tW0.select lnD sqrtD).isSome = true ∧ tW0.select lnD sqrtD = some 0 :=
  ⟨(C10_select_always_some lnD sqrtD tW0).1,
   (C10_select_always_some lnD sqrtD tW0).2 (by decide)⟩

/-- C2: during Select, whenever a node has an unvisited child, the `max_by`
step chooses an unvisited child no matter what scores its visited siblings
have; and the descent only stops at a node with no children, so the node
`select` returns is always a leaf. -/
theorem C2_select_prefers_unvisited (lnF sqrtF : F → F) (t : Tree T S)
    (hwf : WF t) (hz : ZeroInv t) :
    (∀ i, i < t.nodes.length →
      (∃ c ∈ (t.nd i).children, (t.nd c).visits = 0) →
      ∃ c, t.selectChild lnF sqrtF i = some c ∧ c ∈ (t.nd i).children ∧
        (t.nd c).visits = 0) ∧
    (∀ r, t.select lnF sqrtF = some r → (t.nd r).children = []) := by
  constructor
  · intro i hi hex
    exact t.selectChild_unvisited lnF sqrtF hwf hz i hi hex
  · intro r hr
    unfold Tree.select at hr
    have hr' : t.selectLoop lnF sqrtF t.nodes.length 0 = r := by
      injection hr
    rw [← hr']
    exact t.selectLoop_leaf lnF sqrtF hwf t.nodes.length 0 hwf.1 (by omega)

/-- Witness for C2 on `tW1`, whose root has two unvisited children. -/
theorem C2_witness :
    (∃ c, tW1.selectChild lnD sqrtD 0 = some c ∧ c ∈ (tW1.nd 0).children ∧
      (tW1.nd c).visits = 0) ∧
    (tW1.nd (tW1.selectLoop lnD sqrtD tW1.nodes.length 0)).children = [] :=
  ⟨(C2_select_prefers_unvisited lnD sqrtD tW1 (by decide) (by decide)).1 0
      (by decide) (by decide),
   (C2_select_prefers_unvisited lnD sqrtD tW1 (by decide) (by decide)).2
      (tW1.selectLoop lnD sqrtD tW1.nodes.length 0) rfl⟩

/-- C7: simulate returns the undiscounted sum of every reward the rollout
collects, and on a domain with fixed per-step reward `R` and exactly `K`
remaining steps it returns `R * K`.  (It reads the node through `&self` and
returns only a number, so the node's state and statistics are untouched.) -/
theorem C7_simulate_rollout_sum (ops : StateOps T S) (fuel : Nat)
    (t : Tree T S) (i : Nat) :
    t.simulate ops fuel i =
      ((runEnum ops fuel (t.nd i).state).1.map Prod.snd).foldl F.add (F.fin 0) ∧
    (∀ (R : ℚ) (K : Nat),
      (∀ (s : S) (a : T), (ops.do_action s a).2 = F.fin R) →
      Exhausts ops fuel (t.nd i).state →
      (runEnum ops fuel (t.nd i).state).1.length = K →
      t.simulate ops fuel i = F.fin (R * K)) := by
  have h1 : t.simulate ops fuel i =
      ((runEnum ops fuel (t.nd i).state).1.map Prod.snd).foldl F.add (F.fin 0) := by
    unfold Tree.simulate
    exact simLoop_eq_runEnum ops fuel (t.nd i).state (F.fin 0)
  refine ⟨h1, ?_⟩
  intro R K hR _hex hK
  rw [h1]
  have hall : ∀ r ∈ (runEnum ops fuel (t.nd i).state).1.map Prod.snd,
      r = F.fin R := by
    intro r hr
    obtain ⟨pr, hpr, hpr2⟩ := List.mem_map.mp hr
    rw [← hpr2]
    exact runEnum_rewards_const ops R hR fuel (t.nd i).state pr hpr
  rw [foldl_add_fin_const R _ hall 0]
  congr 1
  rw [List.length_map, hK]
  ring

/-- Witness for C7: two remaining actions of reward `1/2` roll out to `1/2 * 2`. -/
theorem C7_witness :
    tW0.simulate opsCount 4 0 = F.fin ((1 / 2) * ((2 : Nat) : ℚ)) :=
  (C7_simulate_rollout_sum opsCount 4 tW0 0).2 (1 / 2) 2
    (fun _ _ => rfl) (by decide) (by decide)

/-- C9: `size` counts nodes ever added — it is `1` at construction, each
`add_node` increments it by exactly 1, and it stays equal to the number of
arena nodes (1 root plus one node per expansion-created child) across
`add_node`, `expand` and `search`. -/
theorem C9_size_accounting :
    (∀ (lr : F) (a : T) (s : S),
      (Tree.new lr a s).size = 1 ∧ SizeInv (Tree.new lr a s)) ∧
    (∀ (t : Tree T S) (n : Node T S) (p : Nat),
      (t.add_node n p).1.size = t.size + 1 ∧
      (SizeInv t → SizeInv (t.add_node n p).1)) ∧
    (∀ (ops : StateOps T S) (fuel : Nat) (t : Tree T S) (i : Nat),
      SizeInv t → SizeInv (Tree.expand ops fuel t i).1) ∧
    (∀ (ops : StateOps T S) (lnF sqrtF : F → F) (ef sf iters : Nat) (t : Tree T S),
      SizeInv t → SizeInv (Tree.search ops lnF sqrtF ef sf iters t).1) := by
  refine ⟨?_, ?_, ?_, ?_⟩
  · intro lr a s
    exact ⟨rfl, rfl⟩
  · intro t n p
    refine ⟨Tree.add_node_size_any t n p, ?_⟩
    intro h
    have h' : t.size = t.nodes.length := h
    unfold SizeInv
    rw [Tree.add_node_size_any, Tree.add_node_length_any]
    omega
  · intro ops fuel t i h
    exact Tree.expandLoop_sizeInv ops fuel t i (t.nd i).state h
  · intro ops lnF sqrtF ef sf iters t h
    exact Tree.search_sizeInv ops lnF sqrtF ef sf iters t h

/-- Witness for C9: a concrete construction and a 3-iteration search both
keep `size` in sync with the node count. -/
theorem C9_witness :
    SizeInv (Tree.search opsCount lnD sqrtD 4 4 3 tW0).1 ∧
    (Tree.new (F.fin 1) (0 : Nat) (0 : Nat)).size = 1 := by
  have h := C9_size_accounting (T := Nat) (S := Nat)
  exact ⟨h.2.2.2 opsCount lnD sqrtD 4 4 3 tW0 (by decide), (h.1 (F.fin 1) 0 0).1⟩

lemma F.add_nan_right (x : F) : F.add x F.nan = F.nan := by cases x <;> rfl

lemma F.mul_nan_right (x : F) : F.mul x F.nan = F.nan := by cases x <;> rfl

lemma F.mul_fin_fin (x y : ℚ) : F.mul (F.fin x) (F.fin y) = F.fin (x * y) := rfl

lemma F.div_fin_fin_pos {x y : ℚ} (hy : 0 < y) :
    F.div (F.fin x) (F.fin y) = F.fin (x / y) := by
  simp [F.div, hy.ne']

lemma F.mul_two_ninf : F.mul (F.fin 2) F.ninf = F.ninf := by norm_num [F.mul]

lemma F.div_ninf_nonneg {y : ℚ} (hy : 0 ≤ y) : F.div F.ninf (F.fin y) = F.ninf := by
  simp [F.div, hy]

/-- C3: expanding a leaf whose state yields exactly N actions creates
exactly N children in one call — the arena grows by N, the leaf's children
become the N fresh indices, every new child has zero statistics and resolves
its parent to the leaf, no other node changes — and `expand` returns the
first created child, or nothing when no action was available. -/
theorem C3_expand_exhaustive (ops : StateOps T S) (fuel : Nat) (t : Tree T S)
    (i : Nat) (hi : i < t.nodes.length) (hleaf : (t.nd i).children = [])
    (hex : Exhausts ops fuel (t.nd i).state) :
    ((Tree.expand ops fuel t i).1).nodes.length
        = t.nodes.length + (runEnum ops fuel (t.nd i).state).1.length ∧
    (((Tree.expand ops fuel t i).1).nd i).children
        = idxs t.nodes.length (runEnum ops fuel (t.nd i).state).1.length ∧
    (∀ k, k < (runEnum ops fuel (t.nd i).state).1.length →
      (((Tree.expand ops fuel t i).1).nd (t.nodes.length + k)).visits = 0 ∧
      (((Tree.expand ops fuel t i).1).nd (t.nodes.length + k)).total_reward
          = F.fin 0 ∧
      ((Tree.expand ops fuel t i).1).parentOf (t.nodes.length + k) = some i) ∧
    (∀ j, j ≠ i → j < t.nodes.length →
      ((Tree.expand ops fuel t i).1).nd j = t.nd j) ∧
    ((Tree.expand ops fuel t i).1).size
        = t.size + (runEnum ops fuel (t.nd i).state).1.length ∧
    (Tree.expand ops fuel t i).2 =
      (if (runEnum ops fuel (t.nd i).state).1.length = 0 then none
       else some t.nodes.length) := by
  have hfst : (Tree.expand ops fuel t i).1
      = Tree.expandLoop ops fuel t i (t.nd i).state := rfl
  have hsnd : (Tree.expand ops fuel t i).2
      = (Tree.expandLoop ops fuel t i (t.nd i).state).child_at i 0 := rfl
  obtain ⟨hlen, hndi, hnew, hndj, hsize, -⟩ :=
    Tree.expandLoop_spec ops fuel t i (t.nd i).state hi hex
  have hch : ((Tree.expandLoop ops fuel t i (t.nd i).state).nd i).children
      = idxs t.nodes.length (runEnum ops fuel (t.nd i).state).1.length := by
    rw [hndi, hleaf]
    simp
  refine ⟨?_, ?_, ?_, ?_, ?_, ?_⟩
  · rw [hfst]; exact hlen
  · rw [hfst]; exact hch
  · intro k hk
    obtain ⟨hv, hr, -, hpar⟩ := hnew k hk
    refine ⟨by rw [hfst]; exact hv, by rw [hfst]; exact hr, ?_⟩
    rw [hfst]
    apply (Tree.parentOf_eq_some _ _ _).mpr
    refine ⟨hpar, ?_⟩
    rw [hlen]
    omega
  · intro j hji hj
    rw [hfst]
    exact hndj j hji hj
  · rw [hfst]; exact hsize
  · rw [hsnd]
    unfold Tree.child_at
    rw [hch]
    rcases Nat.eq_zero_or_pos (runEnum ops fuel (t.nd i).state).1.length with h0 | h0
    · rw [h0]
      simp [idxs]
    · obtain ⟨n, hn⟩ : ∃ n, (runEnum ops fuel (t.nd i).state).1.length = n + 1 :=
        ⟨(runEnum ops fuel (t.nd i).state).1.length - 1, by omega⟩
      rw [hn]
      simp [idxs_succ, length_idxs]

/-- Witness for C3 on the two-action leaf root of `tW0`. -/
theorem C3_witness :
    ((Tree.expand opsCount 4 tW0 0).1).nodes.length
        = tW0.nodes.length + (runEnum opsCount 4 (tW0.nd 0).state).1.length ∧
    (Tree.expand opsCount 4 tW0 0).2 =
      (if (runEnum opsCount 4 (tW0.nd 0).state).1.length = 0 then none
       else some tW0.nodes.length) := by
  have h := C3_expand_exhaustive opsCount 4 tW0 0 (by decide) (by decide) (by decide)
  exact ⟨h.1, h.2.2.2.2.2⟩

/-- C4: backpropagating `v` from node `i` adds `v` to `total_reward` and `1`
to `visits` on exactly the nodes of the parent chain from `i` — pairwise
distinct, starting at `i`, containing the root — and leaves every other node
untouched. -/
theorem C4_backpropagate_ancestors (t : Tree T S) (i : Nat) (v : F)
    (hwf : WF t) (hi : i < t.nodes.length) :
    (∀ j ∈ Tree.path t.nodes.length t i,
      ((t.backpropagate i v).nd j).visits = (t.nd j).visits + 1 ∧
      ((t.backpropagate i v).nd j).total_reward = F.add (t.nd j).total_reward v) ∧
    (∀ j, j ∉ Tree.path t.nodes.length t i → (t.backpropagate i v).nd j = t.nd j) ∧
    (Tree.path t.nodes.length t i).Nodup ∧
    (Tree.path t.nodes.length t i).head? = some i ∧
    0 ∈ Tree.path t.nodes.length t i ∧
    (∀ j ∈ Tree.path t.nodes.length t i, j ≤ i ∧ j < t.nodes.length) := by
  have hbp : t.backpropagate i v = Tree.backpropLoop v t.nodes.length t i := rfl
  obtain ⟨hupd, hkeep, -, -, -⟩ :=
    Tree.backpropLoop_spec v t.nodes.length t i hwf.2.2.2 hwf.2.1 hi
  refine ⟨?_, ?_, t.path_nodup hwf.2.2.2 hwf.2.1 t.nodes.length i,
    Tree.path_head t.nodes.length t i,
    t.path_root_mem hwf.2.2.2 hwf.2.1 t.nodes.length i hi (by omega), ?_⟩
  · intro j hj
    rw [hbp, hupd j hj]
    exact ⟨rfl, rfl⟩
  · intro j hj
    rw [hbp]
    exact hkeep j hj
  · intro j hj
    have h1 := t.path_le hwf.2.2.2 hwf.2.1 t.nodes.length i j hj
    exact ⟨h1, by omega⟩

/-- Witness for C4: backpropagating from child 1 of `tW1` bumps the root's
visit count, and the walked chain contains the root. -/
theorem C4_witness :
    ((tW1.backpropagate 1 (F.fin 2)).nd 0).visits = (tW1.nd 0).visits + 1 ∧
    0 ∈ Tree.path tW1.nodes.length tW1 1 := by
  have h := C4_backpropagate_ancestors tW1 1 (F.fin 2) (by decide) (by decide)
  exact ⟨(h.1 0 h.2.2.2.2.1).1, h.2.2.2.2.1⟩

/-- C6: for a non-root node, `score(c)` is `NaN` whenever the parent has
zero visits (because `ln 0 = -inf` and `sqrt(-inf) = NaN` propagate), and is
finite whenever both the node and its parent have positive visits (given the
node's accumulated reward and the constant are finite floats). -/
theorem C6_score_nan_or_finite (lnF sqrtF : F → F)
    (hln0 : lnF (F.fin 0) = F.ninf)
    (hsq : sqrtF F.ninf = F.nan)
    (hlnfin : ∀ q : ℚ, 1 ≤ q → ∃ r : ℚ, 0 ≤ r ∧ lnF (F.fin q) = F.fin r)
    (hsqfin : ∀ q : ℚ, 0 ≤ q → ∃ r : ℚ, sqrtF (F.fin q) = F.fin r)
    (t : Tree T S) (i p : Nat) (hp : t.parentOf i = some p) (c : ℚ) :
    ((t.nd p).visits = 0 → t.score lnF sqrtF i (F.fin c) = F.nan) ∧
    (0 < (t.nd p).visits → 0 < (t.nd i).visits →
      (∃ x : ℚ, (t.nd i).total_reward = F.fin x) →
      (t.score lnF sqrtF i (F.fin c)).isFinite = true) := by
  have hscore : t.score lnF sqrtF i (F.fin c) =
      F.add (F.div (t.nd i).total_reward (F.fin ((t.nd i).visits : ℚ)))
        (F.mul (F.fin c) (sqrtF (F.div
          (F.mul (F.fin 2) (lnF (F.fin ((t.nd p).visits : ℚ))))
          (F.fin ((t.nd i).visits : ℚ))))) := by
    unfold Tree.score
    simp only [hp]
  constructor
  · intro hv0
    rw [hscore, hv0]
    rw [show (((0 : Nat) : ℚ)) = (0 : ℚ) from by norm_num]
    rw [hln0, F.mul_two_ninf, F.div_ninf_nonneg (Nat.cast_nonneg _), hsq,
      F.mul_nan_right, F.add_nan_right]
  · intro hvp hvi hfin
    obtain ⟨x, hx⟩ := hfin
    have hvp1 : (1 : ℚ) ≤ ((t.nd p).visits : ℚ) := by
      exact_mod_cast hvp
    obtain ⟨r, hr0, hlnr⟩ := hlnfin _ hvp1
    have hvipos : (0 : ℚ) < ((t.nd i).visits : ℚ) := by exact_mod_cast hvi
    rw [hscore, hx, hlnr, F.mul_fin_fin, F.div_fin_fin_pos hvipos,
      F.div_fin_fin_pos hvipos]
    have h2r : 0 ≤ 2 * r / ((t.nd i).visits : ℚ) :=
      div_nonneg (by linarith) hvipos.le
    obtain ⟨s, hs⟩ := hsqfin _ h2r
    rw [hs, F.mul_fin_fin, F.add_fin_fin]
    rfl

/-- Witness for C6: in `tW1` the unvisited root makes child 1's score `NaN`;
in `tW2` (both visited, finite stats) the score is finite. -/
theorem C6_witness :
    tW1.score lnD sqrtD 1 (F.fin 1) = F.nan ∧
    (tW2.score lnD sqrtD 1 (F.fin 1)).isFinite = true := by
  have hlnfin : ∀ q : ℚ, 1 ≤ q → ∃ r : ℚ, 0 ≤ r ∧ lnD (F.fin q) = F.fin r := by
    intro q hq
    refine ⟨q - 1, by linarith, ?_⟩
    have hq0 : ¬ q = 0 := by intro h; rw [h] at hq; norm_num at hq
    simp [lnD, hq0, hq]
  have hsqfin : ∀ q : ℚ, 0 ≤ q → ∃ r : ℚ, sqrtD (F.fin q) = F.fin r := by
    intro q hq
    exact ⟨q, by simp [sqrtD, hq]⟩
  constructor
  · exact (C6_score_nan_or_finite lnD sqrtD (by decide) rfl hlnfin hsqfin
      tW1 1 0 (by decide) 1).1 (by decide)
  · exact (C6_score_nan_or_finite lnD sqrtD (by decide) rfl hlnfin hsqfin
      tW2 1 0 (by decide) 1).2 (by decide) (by decide) ⟨1, by decide⟩

end Rmcts
